import Mathlib

/-!
# Verification of the DNS byte-packet-buffer codec

Shallow embedding of `src/byte_packet_buffer.rs` and `src/dns_question.rs`
(a small DNS wire-format codec), together with proofs about the cursor
primitives and the qname compression algorithm.

Modelling conventions:

* Rust strings and byte slices are modelled as byte lists (`List Nat`);
  the fixed array `buf : [u8; 512]` is a total function `Nat → Nat` that is
  only ever consulted through the bounds-checked accessors, exactly as in
  the source.
* `Result<T>` with its string errors becomes `Except DnsError`, one
  constructor per distinct error message produced by the source.
  `set`/`set_u16` index the array without a bounds check, so they are given
  the richer result type `RustResult`, whose extra `panic` outcome models
  Rust's out-of-bounds indexing panic.
* The `loop` inside `read_qname` is modelled with explicit fuel
  (`none` = fuel exhausted); `readQnameLoop_adequate` proves that the fixed
  fuel `4200` used by `read_qname` suffices for every buffer and starting
  position, so the model is total.
* `String::from_utf8_lossy(..).to_lowercase()` acts on the label bytes read
  from the buffer; on ASCII input it is exactly the per-byte map
  `A`–`Z` ↦ `a`–`z`, which is `toLowerByte` below.
-/

/-- The distinct error messages produced by `byte_packet_buffer.rs`:
`"End of buffer"`, `"Limit of 5 jumps exceeded"`, and
`"Single label exceeds 63 characters of length"`. -/
inductive DnsError where
  | endOfBuffer
  | compressionLoop
  | labelTooLong
deriving DecidableEq

/-- Outcome of a Rust function returning `Result`, refined with a `panic`
constructor for unchecked array indexing (`self.buf[pos] = val`). -/
inductive RustResult (α : Type) where
  | ok (a : α)
  | err (e : DnsError)
  | panic

/-- `pub struct BytePacketBuffer { pub buf: [u8; 512], pub pos: usize }`. -/
structure BytePacketBuffer where
  buf : Nat → Nat
  pos : Nat

/-- Helper for concrete buffers: positions beyond the listed bytes hold 0. -/
def bufOfList (l : List Nat) : Nat → Nat := fun i => l.getD i 0

/-- ASCII lowercasing of one byte, the action of
`String::from_utf8_lossy(..).to_lowercase()` on ASCII label bytes. -/
def toLowerByte (b : Nat) : Nat := if 65 ≤ b ∧ b ≤ 90 then b + 32 else b

namespace BytePacketBuffer

/-- `BytePacketBuffer::new()`: zeroed buffer, position 0. -/
def new : BytePacketBuffer := { buf := fun _ => 0, pos := 0 }

/-- `step`: `self.pos += steps; Ok(())` — no bounds check in the source. -/
def step (b : BytePacketBuffer) (steps : Nat) : Except DnsError BytePacketBuffer :=
  Except.ok { b with pos := b.pos + steps }

/-- `seek`: `self.pos = steps; Ok(())`. -/
def seek (b : BytePacketBuffer) (steps : Nat) : Except DnsError BytePacketBuffer :=
  Except.ok { b with pos := steps }

/-- `read`: one byte at `pos`, advancing; `Err("End of buffer")` if `pos >= 512`. -/
def read (b : BytePacketBuffer) : Except DnsError (Nat × BytePacketBuffer) :=
  if b.pos ≥ 512 then .error .endOfBuffer
  else .ok (b.buf b.pos, { b with pos := b.pos + 1 })

/-- `get`: one byte at `pos` without moving; `Err` if `pos >= 512`. -/
def get (b : BytePacketBuffer) (pos : Nat) : Except DnsError Nat :=
  if pos ≥ 512 then .error .endOfBuffer else .ok (b.buf pos)

/-- `get_range`: the slice `[start, start+len)`; the source rejects
`start + len >= 512`. -/
def get_range (b : BytePacketBuffer) (start len : Nat) : Except DnsError (List Nat) :=
  if start + len ≥ 512 then .error .endOfBuffer
  else .ok ((List.range len).map (fun i => b.buf (start + i)))

/-- `read_u16`: two `read`s, big endian. -/
def read_u16 (b : BytePacketBuffer) : Except DnsError (Nat × BytePacketBuffer) :=
  match b.read with
  | .error e => .error e
  | .ok (hi, b1) =>
    match b1.read with
    | .error e => .error e
    | .ok (lo, b2) => .ok ((hi <<< 8) ||| lo, b2)

/-- The body of `read_qname`'s `loop`, with explicit fuel (one unit per
iteration; `none` = fuel exhausted).  State: the shared buffer `b` (whose
`pos` the loop moves only via `seek`), the local position `pos`, the
`jumped` flag, `jumps_performed`, the output string, and the delimiter. -/
def readQnameLoop (fuel : Nat) (b : BytePacketBuffer) (pos : Nat) (jumped : Bool)
    (jumps_performed : Nat) (outstr delim : List Nat) :
    Option (Except DnsError Unit × BytePacketBuffer × List Nat) :=
  match fuel with
  | 0 => none
  | fuel + 1 =>
    -- `if jumps_performed > max_jumps { return Err(..) }` with `max_jumps = 5`
    if jumps_performed > 5 then some (.error .compressionLoop, b, outstr)
    else
      match b.get pos with
      | .error e => some (.error e, b, outstr)
      | .ok len =>
        if len &&& 0xC0 = 0xC0 then
          -- first pointer: `self.seek(pos + 2)?` (seek always succeeds)
          let b1 := if !jumped then { b with pos := pos + 2 } else b
          match b1.get (pos + 1) with
          | .error e => some (.error e, b1, outstr)
          | .ok b2 =>
            readQnameLoop fuel b1 (((len ^^^ 0xC0) <<< 8) ||| b2) true
              (jumps_performed + 1) outstr delim
        else if len = 0 then
          -- `pos += 1; break`, then `if !jumped { self.seek(pos)?; }`
          some (.ok (), if !jumped then { b with pos := pos + 1 } else b, outstr)
        else
          -- `pos += 1`, `outstr.push_str(delim)`, then the range read
          match b.get_range (pos + 1) len with
          | .error e => some (.error e, b, outstr ++ delim)
          | .ok str_buffer =>
            readQnameLoop fuel b (pos + 1 + len) jumped jumps_performed
              (outstr ++ delim ++ str_buffer.map toLowerByte) [46]

/-- `read_qname(&mut self, outstr: &mut String)`.  Returns the `Result`
together with the final buffer and output string (the source mutates them
in place, also on the error paths). -/
def read_qname (b : BytePacketBuffer) (outstr : List Nat) :
    Option (Except DnsError Unit × BytePacketBuffer × List Nat) :=
  readQnameLoop 4200 b b.pos false 0 outstr []

/-- `write`: store `val` at `pos` and advance; `Err` if `pos >= 512`. -/
def write (b : BytePacketBuffer) (val : Nat) : Except DnsError BytePacketBuffer :=
  if b.pos ≥ 512 then .error .endOfBuffer
  else .ok { buf := fun i => if i = b.pos then val else b.buf i, pos := b.pos + 1 }

/-- `write_u8`: delegates to `write`. -/
def write_u8 (b : BytePacketBuffer) (val : Nat) : Except DnsError BytePacketBuffer :=
  b.write val

/-- `write_u16`: two big-endian byte writes (`as u8` is `% 256`). -/
def write_u16 (b : BytePacketBuffer) (val : Nat) : Except DnsError BytePacketBuffer :=
  match b.write ((val >>> 8) % 256) with
  | .error e => .error e
  | .ok b1 => b1.write (val &&& 0xFF)

/-- The inner `for b in label.as_bytes() { self.write_u8(*b)?; }`. -/
def writeBytes (b : BytePacketBuffer) : List Nat → Except DnsError BytePacketBuffer
  | [] => .ok b
  | v :: vs =>
    match b.write_u8 v with
    | .error e => .error e
    | .ok b1 => b1.writeBytes vs

/-- The `for label in qname.split('.')` loop of `write_qname`: length check
against `0x3f`, length byte (`len as u8` is `% 256`), then the label bytes. -/
def writeLabels (b : BytePacketBuffer) : List (List Nat) → Except DnsError BytePacketBuffer
  | [] => .ok b
  | label :: rest =>
    if label.length > 0x3f then .error .labelTooLong
    else
      match b.write_u8 (label.length % 256) with
      | .error e => .error e
      | .ok b1 =>
        match b1.writeBytes label with
        | .error e => .error e
        | .ok b2 => b2.writeLabels rest

/-- `set`: `self.buf[pos] = val; Ok(())` — unchecked indexing, so an
out-of-bounds `pos` is a panic, not an `Err`. -/
def set (b : BytePacketBuffer) (pos val : Nat) : RustResult BytePacketBuffer :=
  if pos ≥ 512 then .panic
  else .ok { b with buf := fun i => if i = pos then val else b.buf i }

/-- `set_u16`: two `set`s (`as u8` is `% 256`); panics propagate. -/
def set_u16 (b : BytePacketBuffer) (pos val : Nat) : RustResult BytePacketBuffer :=
  match b.set pos ((val >>> 8) % 256) with
  | .ok b1 => b1.set (pos + 1) (val &&& 0xFF)
  | .err e => .err e
  | .panic => .panic

end BytePacketBuffer

/-- Rust's `str::split('.')` on the byte-list model: `""` splits to `[""]`,
a leading/trailing/double dot yields empty pieces.  (The `[] => [[v]]`
fallback inside the match is unreachable: `splitOnDot` never returns `[]`.) -/
def splitOnDot : List Nat → List (List Nat)
  | [] => [[]]
  | v :: t =>
    if v = 46 then [] :: splitOnDot t
    else
      match splitOnDot t with
      | h :: r => (v :: h) :: r
      | [] => [[v]]

/-- `write_qname`: write each label of the split name, then the
terminating zero byte. -/
def BytePacketBuffer.write_qname (b : BytePacketBuffer) (qname : List Nat) :
    Except DnsError BytePacketBuffer :=
  match b.writeLabels (splitOnDot qname) with
  | .error e => .error e
  | .ok b1 => b1.write_u8 0

/-- Wire encoding of a label sequence without the terminating zero:
each label prefixed by its length byte. -/
def encB : List (List Nat) → List Nat
  | [] => []
  | l :: r => l.length :: (l ++ encB r)

/-- Wire encoding of a label sequence including the terminating zero byte. -/
def enc : List (List Nat) → List Nat
  | [] => [0]
  | l :: r => l.length :: (l ++ enc r)

/-- Length of the wire encoding (with terminator). -/
def encLen (L : List (List Nat)) : Nat := (enc L).length

/-- Join a label sequence, putting `delim` before the first label and a dot
(byte 46) between the rest — the shape in which `read_qname` accumulates
its output. -/
def joinWith : List Nat → List (List Nat) → List Nat
  | _, [] => []
  | delim, l :: r => delim ++ l ++ joinWith [46] r

/-- Specification-side scan of a name starting at `pos`: `inl p` means the
first pointer byte (top two bits set) of the name sits at offset `p`;
`inr e` means no pointer occurs and the name's terminating zero byte ends
at offset `e - 1` (so `e` is just past it).  Fuelled like the loop. -/
def scanNameF (fuel : Nat) (buf : Nat → Nat) (pos : Nat) : Option (Sum Nat Nat) :=
  match fuel with
  | 0 => none
  | fuel + 1 =>
    if pos ≥ 512 then none
    else if buf pos &&& 0xC0 = 0xC0 then some (.inl pos)
    else if buf pos = 0 then some (.inr (pos + 1))
    else scanNameF fuel buf (pos + 1 + buf pos)

/-- `scanNameF` at the loop's fuel. -/
def scanName (buf : Nat → Nat) (pos : Nat) : Option (Sum Nat Nat) :=
  scanNameF 4200 buf pos

/-- Modelled from the spec: `query_type.rs` is not under `src/`.  The spec
describes an open enumeration over the 16-bit type code with named common
variants plus a catch-all `UNKNOWN` carrying the raw code; `from_num` is a
total mapping, never a failure.  Only `A` (code 1) is needed here. -/
inductive QueryType where
  | UNKNOWN (num : Nat)
  | A
deriving DecidableEq

/-- Modelled from the spec: total decoding of a type code. -/
def QueryType.from_num (num : Nat) : QueryType :=
  if num = 1 then .A else .UNKNOWN num

/-- `pub struct DnsQuestion { pub name: String, pub qtype: QueryType }`. -/
structure DnsQuestion where
  name : List Nat
  qtype : QueryType
deriving DecidableEq

/-! ### Concrete buffers used to exercise the model -/

/-- A mutually-referential compression-pointer chain: offset 0 holds a
pointer to offset 2, offset 2 holds a pointer back to offset 0. -/
def cycBuf : BytePacketBuffer := { buf := bufOfList [192, 2, 192, 0], pos := 0 }

/-- A name `[1]a[0]` at offset 0 and, at offset 3, a 2-byte pointer to it;
the cursor starts at the pointer site 3. -/
def ptrBuf : BytePacketBuffer := { buf := bufOfList [1, 97, 0, 192, 0], pos := 3 }

/-- A question whose name is a self-referential pointer (offset 0 points to
offset 0), followed by type code 1 (A) and class 1. -/
def quesBuf : BytePacketBuffer := { buf := bufOfList [192, 0, 0, 1, 0, 1], pos := 0 }

/-- The labels of `WWW.Example.COM` as ASCII bytes. -/
def wwwLabels : List (List Nat) :=
  [[87, 87, 87], [69, 120, 97, 109, 112, 108, 101], [67, 79, 77]]

/-- A buffer holding the wire encoding of `WWW.Example.COM` at offset 0. -/
def wwwBuf : BytePacketBuffer := { buf := bufOfList (enc wwwLabels), pos := 0 }

/-- A buffer holding just the empty name (a single zero byte) at offset 0. -/
def zeroNameBuf : BytePacketBuffer := { buf := bufOfList [0], pos := 0 }

/-- `DnsQuestion::read` from `dns_question.rs`: note that the source calls
`buffer.read_qname(&mut self.name);` WITHOUT `?`, so the `Result` of the
qname decode (`x.1` below) is dropped; only the in-place mutations of the
buffer position and of `self.name` survive.  The two `read_u16` calls do
use `?`.  (`Option` is inherited from the fuelled `read_qname`.) -/
def DnsQuestion.read (q : DnsQuestion) (buffer : BytePacketBuffer) :
    Option (Except DnsError (DnsQuestion × BytePacketBuffer)) :=
  (buffer.read_qname q.name).map (fun x =>
    match x.2.1.read_u16 with
    | .error e => .error e
    | .ok (t, b2) =>
      match b2.read_u16 with
      | .error e => .error e
      | .ok (_, b3) => .ok ({ name := x.2.2, qtype := QueryType.from_num t }, b3))

/-! ## Theorems

First the generic lemmas about the qname loop, then one theorem (plus
witness / counterexample where required) per claim. -/

open BytePacketBuffer

/-- Fuel adequacy for the qname loop: at most 6 jumps can ever be
performed (the guard fires once `jumps_performed` exceeds 5), and between
jumps the local position strictly increases while every successful `get`
needs it below 512; the linear measure below therefore bounds the number
of loop iterations, so fuel at least the measure never runs out. -/
lemma readQnameLoop_adequate (fuel : Nat) :
    ∀ (b : BytePacketBuffer) (pos : Nat) (jumped : Bool) (jp : Nat) (out delim : List Nat),
    (6 - jp) * 520 + (512 - pos) + 1 ≤ fuel →
    (readQnameLoop fuel b pos jumped jp out delim).isSome := by
  induction fuel with
  | zero => intro b pos jumped jp out delim h; omega
  | succ fuel ih =>
    intro b pos jumped jp out delim h
    simp only [readQnameLoop]
    by_cases hjp : jp > 5
    · simp [hjp]
    · rw [if_neg hjp]
      by_cases hpos : pos ≥ 512
      · simp [BytePacketBuffer.get, hpos]
      · simp only [BytePacketBuffer.get, if_neg hpos]
        by_cases hptr : b.buf pos &&& 0xC0 = 0xC0
        · rw [if_pos hptr]
          by_cases hpos1 : pos + 1 ≥ 512
          · simp [BytePacketBuffer.get, hpos1]
          · simp only [BytePacketBuffer.get, if_neg hpos1]
            apply ih
            have h1 := Nat.sub_le 512
              (((b.buf pos ^^^ 0xC0) <<< 8) |||
                (if !jumped then { b with pos := pos + 2 } else b).buf (pos + 1))
            omega
        · rw [if_neg hptr]
          by_cases h0 : b.buf pos = 0
          · simp [h0]
          · rw [if_neg h0]
            by_cases hr : (pos + 1) + b.buf pos ≥ 512
            · simp [BytePacketBuffer.get_range, hr]
            · simp only [BytePacketBuffer.get_range, if_neg hr]
              apply ih
              omega

/-- C1 counterexample: in `cycBuf` every loop iteration before the failing
guard performs exactly one jump.  With fuel for 6 iterations the loop has
already performed 6 jumps and has not yet failed (it runs out of fuel
instead), so the `CompressionLoop` error does NOT arrive within 5 jump
iterations; it arrives on the 7th iteration, after 6 jumps. -/
theorem read_qname_cycle_not_within_five_jumps :
    readQnameLoop 6 cycBuf 0 false 0 [] [] = none ∧
    readQnameLoop 7 cycBuf 0 false 0 [] []
      = some (.error .compressionLoop, { cycBuf with pos := 2 }, []) :=
  ⟨rfl, rfl⟩

/-- C1 (amended): `read_qname` terminates on every buffer contents and
every starting position (fuel 4200 always yields a result), and on a
mutually-referential pointer chain it fails with `CompressionLoop` after
performing 6 jumps — the guard rejects only `jumps_performed > 5` — never
looping indefinitely. -/
theorem read_qname_terminates_cycle_six_jumps :
    (∀ (b : BytePacketBuffer) (out : List Nat), ∃ r, read_qname b out = some r) ∧
    read_qname cycBuf [] = some (.error .compressionLoop, { cycBuf with pos := 2 }, []) := by
  constructor
  · intro b out
    have h := readQnameLoop_adequate 4200 b b.pos false 0 out []
      (by have := Nat.sub_le 512 b.pos; omega)
    exact Option.isSome_iff_exists.mp h
  · rfl

/-- C3 (code bug): the source guards `get_range` with
`start + len >= 512`, so the maximal in-bounds range read
`start + len == 512` — here `start = 511`, `len = 1` — is rejected with
`EndOfBuffer` even though the claim (and the spec's own warning against
exactly this off-by-one) says it must succeed.  `start + len == 513`
fails as the claim states. -/
theorem get_range_rejects_maximal_inbounds_read :
    get_range BytePacketBuffer.new 511 1 = Except.error DnsError.endOfBuffer ∧
    get_range BytePacketBuffer.new 511 2 = Except.error DnsError.endOfBuffer :=
  ⟨rfl, rfl⟩

/-- C4 counterexample: `step` has no bounds check, so stepping a fresh
buffer by 513 succeeds and leaves the position at 513 > 512, contradicting
the claim that a step carrying the position past capacity fails. -/
theorem step_past_capacity_succeeds :
    step BytePacketBuffer.new 513 = Except.ok { BytePacketBuffer.new with pos := 513 } ∧
    512 < ({ BytePacketBuffer.new with pos := 513 } : BytePacketBuffer).pos :=
  ⟨rfl, by decide⟩

/-- C4 (amended): `step(n)` never fails; it unconditionally advances the
position by `n`, with no comparison against the capacity (bounds are
enforced only by the subsequent reads and writes). -/
theorem step_never_fails (b : BytePacketBuffer) (n : Nat) :
    step b n = Except.ok { b with pos := b.pos + n } := rfl

/-- C5 counterexample: `set` performs `self.buf[pos] = val` with no bounds
check, so at `pos = 512` it panics (out-of-bounds indexing) instead of
returning an `EndOfBuffer` error; likewise `set_u16`. -/
theorem set_oob_panics_not_endOfBuffer :
    set BytePacketBuffer.new 512 7 = RustResult.panic ∧
    set BytePacketBuffer.new 512 7 ≠ RustResult.err DnsError.endOfBuffer ∧
    set_u16 BytePacketBuffer.new 512 7 ≠ RustResult.err DnsError.endOfBuffer :=
  ⟨rfl, by intro h; simp [BytePacketBuffer.set] at h,
    by intro h; simp [BytePacketBuffer.set_u16, BytePacketBuffer.set] at h⟩

/-- C5 (amended): for every `pos ≥ 512` the absolute-overwrite operations
`set` and `set_u16` panic from unchecked array indexing; they never return
an `EndOfBuffer` error. -/
theorem set_and_set_u16_panic_oob (b : BytePacketBuffer) (pos val : Nat)
    (h : 512 ≤ pos) :
    b.set pos val = RustResult.panic ∧ b.set_u16 pos val = RustResult.panic := by
  have hp : ∀ v, b.set pos v = RustResult.panic := fun v => by
    simp [BytePacketBuffer.set, show pos ≥ 512 from h]
  exact ⟨hp val, by simp [BytePacketBuffer.set_u16, hp]⟩

/-- Witness for C5's amended theorem at `pos = 600`. -/
theorem set_and_set_u16_panic_oob_witness :
    set BytePacketBuffer.new 600 7 = RustResult.panic ∧
    set_u16 BytePacketBuffer.new 600 7 = RustResult.panic :=
  set_and_set_u16_panic_oob BytePacketBuffer.new 600 7 (by decide)

/-- C6 (code bug): on `quesBuf` the qname decode inside
`DnsQuestion::read` fails with `CompressionLoop`, yet the question decode
returns `Ok` — the source drops the `Result` of
`buffer.read_qname(&mut self.name)` (no `?`), silently swallowing the
error and carrying on with the type and class reads. -/
theorem dns_question_read_swallows_qname_error :
    read_qname quesBuf [] = some (.error .compressionLoop, { quesBuf with pos := 2 }, []) ∧
    DnsQuestion.read { name := [], qtype := QueryType.UNKNOWN 0 } quesBuf
      = some (.ok ({ name := [], qtype := QueryType.A }, { quesBuf with pos := 6 })) :=
  ⟨rfl, rfl⟩

/-- Once a jump has occurred (`jumped = true`), the loop never touches the
shared buffer again — no later pointer re-seeks it — so the returned
buffer is exactly the one passed in, whatever the outcome. -/
lemma readQnameLoop_jumped_frame (fuel : Nat) :
    ∀ (b : BytePacketBuffer) (pos jp : Nat) (out delim : List Nat)
      (r : Except DnsError Unit) (b' : BytePacketBuffer) (out' : List Nat),
    readQnameLoop fuel b pos true jp out delim = some (r, b', out') → b' = b := by
  induction fuel with
  | zero =>
    intro b pos jp out delim r b' out' h
    simp [readQnameLoop] at h
  | succ fuel ih =>
    intro b pos jp out delim r b' out' h
    simp only [readQnameLoop] at h
    by_cases hjp : jp > 5
    · rw [if_pos hjp] at h
      simp only [Option.some.injEq, Prod.mk.injEq] at h
      exact h.2.1.symm
    · rw [if_neg hjp] at h
      by_cases hpos : pos ≥ 512
      · simp only [BytePacketBuffer.get, if_pos hpos, Option.some.injEq,
          Prod.mk.injEq] at h
        exact h.2.1.symm
      · simp only [BytePacketBuffer.get, if_neg hpos] at h
        by_cases hptr : b.buf pos &&& 0xC0 = 0xC0
        · rw [if_pos hptr] at h
          simp only [Bool.not_true] at h
          by_cases hpos1 : pos + 1 ≥ 512
          · simp only [BytePacketBuffer.get, if_pos hpos1, if_neg Bool.false_ne_true,
              Option.some.injEq, Prod.mk.injEq] at h
            exact h.2.1.symm
          · simp only [BytePacketBuffer.get, if_neg hpos1, if_neg Bool.false_ne_true] at h
            exact ih _ _ _ _ _ _ _ _ h
        · rw [if_neg hptr] at h
          by_cases h0 : b.buf pos = 0
          · rw [if_pos h0] at h
            simp only [Bool.not_true, if_neg Bool.false_ne_true,
              Option.some.injEq, Prod.mk.injEq] at h
            exact h.2.1.symm
          · rw [if_neg h0] at h
            by_cases hr : (pos + 1) + b.buf pos ≥ 512
            · simp only [BytePacketBuffer.get_range, if_pos hr, Option.some.injEq,
                Prod.mk.injEq] at h
              exact h.2.1.symm
            · simp only [BytePacketBuffer.get_range, if_neg hr] at h
              exact ih _ _ _ _ _ _ _ _ h

/-- Relation between a successful qname loop run (started in the
not-yet-jumped state) and the specification scan `scanNameF`: the final
shared position is exactly 2 past the first pointer site (`inl q` — set on
the first pointer only, later pointers never move it, by
`readQnameLoop_jumped_frame`), or just past the terminating zero byte when
no pointer occurs (`inr e`). -/
lemma readQnameLoop_scan_pos (fuel : Nat) :
    ∀ (b : BytePacketBuffer) (pos jp : Nat) (out delim : List Nat)
      (b' : BytePacketBuffer) (out' : List Nat),
    readQnameLoop fuel b pos false jp out delim = some (.ok (), b', out') →
    (∀ q, scanNameF fuel b.buf pos = some (Sum.inl q) → b'.pos = q + 2) ∧
    (∀ e, scanNameF fuel b.buf pos = some (Sum.inr e) → b'.pos = e) := by
  induction fuel with
  | zero =>
    intro b pos jp out delim b' out' h
    simp [readQnameLoop] at h
  | succ fuel ih =>
    intro b pos jp out delim b' out' h
    simp only [readQnameLoop] at h
    by_cases hjp : jp > 5
    · rw [if_pos hjp] at h
      simp at h
    · rw [if_neg hjp] at h
      by_cases hpos : pos ≥ 512
      · simp [BytePacketBuffer.get, hpos] at h
      · simp only [BytePacketBuffer.get, if_neg hpos] at h
        by_cases hptr : b.buf pos &&& 0xC0 = 0xC0
        · rw [if_pos hptr] at h
          simp only [Bool.not_false, if_pos rfl] at h
          by_cases hpos1 : pos + 1 ≥ 512
          · simp [BytePacketBuffer.get, hpos1] at h
          · simp only [BytePacketBuffer.get, if_neg hpos1] at h
            have hb := readQnameLoop_jumped_frame fuel _ _ _ _ _ _ _ _ h
            constructor
            · intro q hq
              simp only [scanNameF] at hq
              rw [if_neg hpos, if_pos hptr] at hq
              simp only [Option.some.injEq, Sum.inl.injEq] at hq
              subst hq
              rw [hb]
              simp
            · intro e he
              simp only [scanNameF] at he
              rw [if_neg hpos, if_pos hptr] at he
              simp at he
        · rw [if_neg hptr] at h
          by_cases h0 : b.buf pos = 0
          · rw [if_pos h0] at h
            simp only [Option.some.injEq, Prod.mk.injEq] at h
            constructor
            · intro q hq
              simp only [scanNameF] at hq
              rw [if_neg hpos, if_neg hptr, if_pos h0] at hq
              simp at hq
            · intro e he
              simp only [scanNameF] at he
              rw [if_neg hpos, if_neg hptr, if_pos h0] at he
              simp only [Option.some.injEq, Sum.inr.injEq] at he
              subst he
              rw [← h.2.1]
              simp
          · rw [if_neg h0] at h
            by_cases hr : (pos + 1) + b.buf pos ≥ 512
            · simp [BytePacketBuffer.get_range, hr] at h
            · simp only [BytePacketBuffer.get_range, if_neg hr] at h
              have hih := ih _ _ _ _ _ _ _ h
              constructor
              · intro q hq
                apply hih.1
                simp only [scanNameF] at hq
                rw [if_neg hpos, if_neg hptr, if_neg h0] at hq
                exact hq
              · intro e he
                apply hih.2
                simp only [scanNameF] at he
                rw [if_neg hpos, if_neg hptr, if_neg h0] at he
                exact he

/-- C2: whenever `read_qname` succeeds, the final shared position is
exactly 2 past the first pointer site when at least one pointer was
followed (`scanName = inl q` — the seek happens once, on the first
pointer; later pointers run in the `jumped = true` state and never move
the shared position), and just past the terminating zero byte when no
pointer was followed (`scanName = inr e`). -/
theorem read_qname_shared_pos_spec (b : BytePacketBuffer) (out : List Nat)
    (b' : BytePacketBuffer) (out' : List Nat)
    (h : read_qname b out = some (.ok (), b', out')) :
    (∀ q, scanName b.buf b.pos = some (Sum.inl q) → b'.pos = q + 2) ∧
    (∀ e, scanName b.buf b.pos = some (Sum.inr e) → b'.pos = e) :=
  readQnameLoop_scan_pos 4200 b b.pos 0 out [] b' out' h

/-- Witness for C2 on `ptrBuf`: decoding from offset 3 follows the pointer
there, reads the name `a` at offset 0, and leaves the shared position at
`3 + 2 = 5`, two bytes past the pointer site rather than past the jump
target. -/
theorem read_qname_shared_pos_spec_witness :
    read_qname ptrBuf [] = some (.ok (), { ptrBuf with pos := 5 }, [97]) ∧
    ({ ptrBuf with pos := 5 } : BytePacketBuffer).pos = 3 + 2 :=
  ⟨rfl, (read_qname_shared_pos_spec ptrBuf [] { ptrBuf with pos := 5 } [97] rfl).1 3 rfl⟩

/-- The qname loop never writes to the byte array: whatever the outcome,
the returned buffer's contents are the input buffer's contents (only the
position field can change, via the seeks). -/
lemma readQnameLoop_buf_frame (fuel : Nat) :
    ∀ (b : BytePacketBuffer) (pos : Nat) (jumped : Bool) (jp : Nat) (out delim : List Nat)
      (r : Except DnsError Unit) (b' : BytePacketBuffer) (out' : List Nat),
    readQnameLoop fuel b pos jumped jp out delim = some (r, b', out') → b'.buf = b.buf := by
  induction fuel with
  | zero =>
    intro b pos jumped jp out delim r b' out' h
    simp [readQnameLoop] at h
  | succ fuel ih =>
    intro b pos jumped jp out delim r b' out' h
    simp only [readQnameLoop] at h
    by_cases hjp : jp > 5
    · rw [if_pos hjp] at h
      simp only [Option.some.injEq, Prod.mk.injEq] at h
      rw [← h.2.1]
    · rw [if_neg hjp] at h
      by_cases hpos : pos ≥ 512
      · simp only [BytePacketBuffer.get, if_pos hpos, Option.some.injEq,
          Prod.mk.injEq] at h
        rw [← h.2.1]
      · simp only [BytePacketBuffer.get, if_neg hpos] at h
        by_cases hptr : b.buf pos &&& 0xC0 = 0xC0
        · rw [if_pos hptr] at h
          by_cases hpos1 : pos + 1 ≥ 512
          · simp only [BytePacketBuffer.get, if_pos hpos1, Option.some.injEq,
              Prod.mk.injEq] at h
            rw [← h.2.1]
            cases jumped <;> simp
          · simp only [BytePacketBuffer.get, if_neg hpos1] at h
            have hbuf := ih _ _ _ _ _ _ _ _ _ h
            rw [hbuf]
            cases jumped <;> simp
        · rw [if_neg hptr] at h
          by_cases h0 : b.buf pos = 0
          · rw [if_pos h0] at h
            simp only [Option.some.injEq, Prod.mk.injEq] at h
            rw [← h.2.1]
            cases jumped <;> simp
          · rw [if_neg h0] at h
            by_cases hr : (pos + 1) + b.buf pos ≥ 512
            · simp only [BytePacketBuffer.get_range, if_pos hr, Option.some.injEq,
                Prod.mk.injEq] at h
              rw [← h.2.1]
            · simp only [BytePacketBuffer.get_range, if_neg hr] at h
              exact ih _ _ _ _ _ _ _ _ _ h

/-- Content already in the output string on entry is carried along
untouched: running the loop with `pre ++ out` yields exactly the run with
`out`, with `pre` prepended to the resulting string, in every outcome. -/
lemma readQnameLoop_out_shift (fuel : Nat) :
    ∀ (b : BytePacketBuffer) (pos : Nat) (jumped : Bool) (jp : Nat)
      (pre out delim : List Nat),
    readQnameLoop fuel b pos jumped jp (pre ++ out) delim
      = (readQnameLoop fuel b pos jumped jp out delim).map
          (fun x => (x.1, x.2.1, pre ++ x.2.2)) := by
  induction fuel with
  | zero =>
    intro b pos jumped jp pre out delim
    simp [readQnameLoop]
  | succ fuel ih =>
    intro b pos jumped jp pre out delim
    simp only [readQnameLoop]
    by_cases hjp : jp > 5
    · simp [hjp]
    · simp only [if_neg hjp]
      by_cases hpos : pos ≥ 512
      · simp [BytePacketBuffer.get, hpos]
      · simp only [BytePacketBuffer.get, if_neg hpos]
        by_cases hptr : b.buf pos &&& 0xC0 = 0xC0
        · simp only [if_pos hptr]
          by_cases hpos1 : pos + 1 ≥ 512
          · simp [BytePacketBuffer.get, hpos1]
          · simp only [BytePacketBuffer.get, if_neg hpos1]
            exact ih _ _ _ _ _ _ _
        · simp only [if_neg hptr]
          by_cases h0 : b.buf pos = 0
          · simp [h0]
          · simp only [if_neg h0]
            by_cases hr : (pos + 1) + b.buf pos ≥ 512
            · simp [BytePacketBuffer.get_range, hr]
            · simp only [BytePacketBuffer.get_range, if_neg hr]
              have hrec := ih b (pos + 1 + b.buf pos) jumped jp pre
                (out ++ (delim ++
                  ((List.range (b.buf pos)).map (fun i => b.buf (pos + 1 + i))).map toLowerByte))
                [46]
              simpa [List.append_assoc] using hrec

/-- C10: `read_qname` never modifies the buffer's byte contents, whether
it succeeds or fails — only the position and the output string change —
and it only appends to the output string: the run with initial string
`out` is exactly the run with the empty initial string with `out`
prepended (in particular the prior content survives as a prefix, and the
decode-from-empty suffix starts with the first decoded label because the
loop's initial delimiter is empty). -/
theorem read_qname_frame (b : BytePacketBuffer) (out : List Nat) :
    (∀ r b' out', read_qname b out = some (r, b', out') → b'.buf = b.buf) ∧
    read_qname b out
      = (read_qname b []).map (fun x => (x.1, x.2.1, out ++ x.2.2)) := by
  constructor
  · intro r b' out' h
    exact readQnameLoop_buf_frame 4200 _ _ _ _ _ _ _ _ _ h
  · show readQnameLoop 4200 b b.pos false 0 out [] = _
    conv_lhs => rw [show out = out ++ ([] : List Nat) from (List.append_nil out).symm]
    exact readQnameLoop_out_shift 4200 b b.pos false 0 out [] []

/-- Witness for C10 on `zeroNameBuf` with prior content `[120]` (`"x"`):
decoding the empty name leaves the byte contents untouched and the prior
string content intact. -/
theorem read_qname_frame_witness :
    read_qname zeroNameBuf [120] = some (.ok (), { zeroNameBuf with pos := 1 }, [120]) ∧
    ({ zeroNameBuf with pos := 1 } : BytePacketBuffer).buf = zeroNameBuf.buf :=
  ⟨rfl, (read_qname_frame zeroNameBuf [120]).1 (.ok ())
    { zeroNameBuf with pos := 1 } [120] rfl⟩

/-- `splitOnDot` never yields the empty list of pieces (Rust's `split`
always yields at least one piece). -/
lemma splitOnDot_ne_nil (n : List Nat) : splitOnDot n ≠ [] := by
  cases n with
  | nil => simp [splitOnDot]
  | cons v t =>
    simp only [splitOnDot]
    by_cases hv : v = 46
    · simp [hv]
    · rw [if_neg hv]
      cases hs : splitOnDot t <;> simp

/-- Joining the split pieces with dot separators restores the original
name, whatever leading delimiter is used. -/
lemma joinWith_splitOnDot (n : List Nat) : ∀ d, joinWith d (splitOnDot n) = d ++ n := by
  induction n with
  | nil => intro d; simp [splitOnDot, joinWith]
  | cons v t ih =>
    intro d
    simp only [splitOnDot]
    by_cases hv : v = 46
    · rw [if_pos hv]
      show d ++ [] ++ joinWith [46] (splitOnDot t) = d ++ (v :: t)
      rw [ih [46], hv]
      simp
    · rw [if_neg hv]
      cases hs : splitOnDot t with
      | nil => exact absurd hs (splitOnDot_ne_nil t)
      | cons h r =>
        show d ++ (v :: h) ++ joinWith [46] r = d ++ (v :: t)
        have ht := ih []
        rw [hs] at ht
        simp only [joinWith, List.nil_append] at ht
        rw [← ht]
        simp

lemma encLen_cons (l : List Nat) (r : List (List Nat)) :
    encLen (l :: r) = l.length + 1 + encLen r := by
  simp only [encLen, enc, List.length_cons, List.length_append]
  omega

/-- There are strictly fewer labels than encoded bytes. -/
lemma length_lt_encLen (L : List (List Nat)) : L.length < encLen L := by
  induction L with
  | nil => simp [encLen, enc]
  | cons l r ih =>
    rw [encLen_cons]
    simp only [List.length_cons]
    omega

/-- The full encoding is the label bytes followed by the terminator. -/
lemma enc_eq_encB (L : List (List Nat)) : enc L = encB L ++ [0] := by
  induction L with
  | nil => rfl
  | cons l r ih => simp [enc, encB, ih]

/-- A name of `k` bytes encodes to exactly `k + 2` bytes (one length byte
per piece — one more piece than there are dots — plus the terminator). -/
lemma encLen_splitOnDot (n : List Nat) : encLen (splitOnDot n) = n.length + 2 := by
  induction n with
  | nil => rfl
  | cons v t ih =>
    simp only [splitOnDot]
    by_cases hv : v = 46
    · rw [if_pos hv, encLen_cons]
      simp only [List.length_nil, List.length_cons]
      omega
    · rw [if_neg hv]
      cases hs : splitOnDot t with
      | nil => exact absurd hs (splitOnDot_ne_nil t)
      | cons h r =>
        rw [encLen_cons]
        rw [hs, encLen_cons] at ih
        simp only [List.length_cons] at ih ⊢
        omega

/-- A map over `range l.length` that agrees with `l.getD` is `l`. -/
lemma range_map_getD (l : List Nat) (f : Nat → Nat)
    (hf : ∀ i, i < l.length → f i = l.getD i 0) :
    (List.range l.length).map f = l := by
  apply List.ext_getElem
  · simp
  · intro i h1 h2
    simp only [List.getElem_map, List.getElem_range]
    rw [hf i h2]
    exact List.getD_eq_getElem l 0 h2

/-- Lowercasing is the identity on bytes that are already lowercase
ASCII letters. -/
lemma map_toLowerByte_id (l : List Nat) (h : ∀ c ∈ l, 97 ≤ c ∧ c ≤ 122) :
    l.map toLowerByte = l := by
  induction l with
  | nil => rfl
  | cons c t ih =>
    have hc := h c (List.mem_cons_self c t)
    have h1 : toLowerByte c = c := by
      unfold toLowerByte
      rw [if_neg (by omega)]
    simp only [List.map_cons, h1]
    rw [ih (fun x hx => h x (List.mem_cons_of_mem _ hx))]

lemma map_map_toLowerByte_id (L : List (List Nat))
    (h : ∀ l ∈ L, ∀ c ∈ l, 97 ≤ c ∧ c ≤ 122) :
    L.map (List.map toLowerByte) = L := by
  induction L with
  | nil => rfl
  | cons l r ih =>
    simp only [List.map_cons]
    rw [map_toLowerByte_id l (h l (List.mem_cons_self l r)),
      ih (fun x hx => h x (List.mem_cons_of_mem _ hx))]

/-- `writeBytes` on a fitting byte list succeeds, advances the position by
the list length, writes exactly those bytes there, and leaves everything
below the start untouched. -/
lemma writeBytes_spec : ∀ (bytes : List Nat) (b : BytePacketBuffer),
    b.pos + bytes.length ≤ 512 →
    ∃ b', b.writeBytes bytes = .ok b' ∧ b'.pos = b.pos + bytes.length ∧
      (∀ j, j < b.pos → b'.buf j = b.buf j) ∧
      (∀ i, i < bytes.length → b'.buf (b.pos + i) = bytes.getD i 0) := by
  intro bytes
  induction bytes with
  | nil =>
    intro b _
    exact ⟨b, rfl, by simp, fun j _ => rfl, fun i hi => absurd hi (by simp)⟩
  | cons v vs ih =>
    intro b hb
    simp only [List.length_cons] at hb
    have hpos : ¬(b.pos ≥ 512) := by omega
    obtain ⟨b', h1, h2, h3, h4⟩ :=
      ih { buf := fun i => if i = b.pos then v else b.buf i, pos := b.pos + 1 }
        (by simp only []; omega)
    refine ⟨b', ?_, ?_, ?_, ?_⟩
    · simp only [BytePacketBuffer.writeBytes, BytePacketBuffer.write_u8,
        BytePacketBuffer.write, if_neg hpos]
      exact h1
    · simp only [h2, List.length_cons]
      omega
    · intro j hj
      rw [h3 j (by simp only []; omega)]
      simp only []
      rw [if_neg (by omega)]
    · intro i hi
      cases i with
      | zero =>
        rw [Nat.add_zero, h3 b.pos (by simp only []; omega)]
        simp
      | succ i =>
        have hc := h4 i (by simp only [List.length_cons] at hi ⊢; omega)
        simp only [] at hc
        rw [show b.pos + (i + 1) = b.pos + 1 + i by omega, hc]
        simp [List.getD_cons_succ]

/-- `writeLabels` on labels of length at most 63 that fit in the buffer
succeeds, advances the position over the encoded bytes `encB`, writes
exactly those bytes, and leaves everything below the start untouched. -/
lemma writeLabels_spec : ∀ (L : List (List Nat)) (b : BytePacketBuffer),
    (∀ l ∈ L, l.length ≤ 63) → b.pos + (encB L).length ≤ 512 →
    ∃ b', b.writeLabels L = .ok b' ∧ b'.pos = b.pos + (encB L).length ∧
      (∀ j, j < b.pos → b'.buf j = b.buf j) ∧
      (∀ i, i < (encB L).length → b'.buf (b.pos + i) = (encB L).getD i 0) := by
  intro L
  induction L with
  | nil =>
    intro b _ _
    exact ⟨b, rfl, by simp [encB], fun j _ => rfl, fun i hi => absurd hi (by simp [encB])⟩
  | cons l r ih =>
    intro b hlen hb
    have hl63 : l.length ≤ 63 := hlen l (List.mem_cons_self l r)
    have henc : (encB (l :: r)).length = 1 + l.length + (encB r).length := by
      simp only [encB, List.length_cons, List.length_append]
      omega
    rw [henc] at hb
    have hpos : ¬(b.pos ≥ 512) := by omega
    have hmod : l.length % 256 = l.length := Nat.mod_eq_of_lt (by omega)
    obtain ⟨b2, hw1, hw2, hw3, hw4⟩ := writeBytes_spec l
      { buf := fun i => if i = b.pos then l.length % 256 else b.buf i, pos := b.pos + 1 }
      (by simp only []; omega)
    simp only [] at hw2
    obtain ⟨b3, hr1, hr2, hr3, hr4⟩ := ih b2
      (fun x hx => hlen x (List.mem_cons_of_mem _ hx)) (by omega)
    refine ⟨b3, ?_, ?_, ?_, ?_⟩
    · simp only [BytePacketBuffer.writeLabels, if_neg (by omega : ¬l.length > 0x3f),
        BytePacketBuffer.write_u8, BytePacketBuffer.write, if_neg hpos, hw1, hr1]
    · rw [hr2, hw2, henc]
      omega
    · intro j hj
      rw [hr3 j (by omega), hw3 j (by simp only []; omega)]
      simp only []
      rw [if_neg (by omega)]
    · intro i hi
      rw [henc] at hi
      have hgetD : (encB (l :: r)).getD i 0
          = (l.length :: (l ++ encB r)).getD i 0 := rfl
      rw [hgetD]
      cases i with
      | zero =>
        rw [Nat.add_zero, hr3 b.pos (by omega), hw3 b.pos (by simp only []; omega)]
        simp only [List.getD_cons_zero]
        simp [hmod]
      | succ i =>
        simp only [List.getD_cons_succ]
        rcases Nat.lt_or_ge i l.length with hil | hil
        · rw [hr3 (b.pos + (i + 1)) (by omega)]
          have hc := hw4 i (by omega)
          simp only [] at hc
          rw [show b.pos + (i + 1) = b.pos + 1 + i by omega, hc,
            List.getD_append l (encB r) 0 i hil]
        · have hc := hr4 (i - l.length) (by omega)
          rw [show b.pos + (i + 1) = b2.pos + (i - l.length) by omega, hc,
            List.getD_append_right l (encB r) 0 i hil]

/-- `write_qname` on a fitting name all of whose pieces have length at
most 63 succeeds, advancing over `encLen` bytes and writing exactly the
wire encoding `enc` (labels plus terminating zero). -/
lemma write_qname_spec (name : List Nat) (b : BytePacketBuffer)
    (hlen : ∀ l ∈ splitOnDot name, l.length ≤ 63)
    (hb : b.pos + encLen (splitOnDot name) ≤ 512) :
    ∃ b', b.write_qname name = .ok b' ∧
      b'.pos = b.pos + encLen (splitOnDot name) ∧
      (∀ j, j < b.pos → b'.buf j = b.buf j) ∧
      (∀ i, i < encLen (splitOnDot name) →
        b'.buf (b.pos + i) = (enc (splitOnDot name)).getD i 0) := by
  have henclen : encLen (splitOnDot name) = (encB (splitOnDot name)).length + 1 := by
    rw [encLen, enc_eq_encB]
    simp
  obtain ⟨b1, h1, h2, h3, h4⟩ := writeLabels_spec (splitOnDot name) b hlen (by omega)
  have hpos1 : ¬(b1.pos ≥ 512) := by omega
  refine ⟨{ buf := fun i => if i = b1.pos then 0 else b1.buf i, pos := b1.pos + 1 },
    ?_, ?_, ?_, ?_⟩
  · simp only [BytePacketBuffer.write_qname, h1, BytePacketBuffer.write_u8,
      BytePacketBuffer.write, if_neg hpos1]
  · simp only []
    omega
  · intro j hj
    simp only []
    rw [if_neg (by omega), h3 j hj]
  · intro i hi
    simp only []
    rw [enc_eq_encB]
    rcases Nat.lt_or_ge i (encB (splitOnDot name)).length with hiB | hiB
    · rw [if_neg (by omega), h4 i hiB,
        List.getD_append (encB (splitOnDot name)) [0] 0 i hiB]
    · have hieq : i = (encB (splitOnDot name)).length := by omega
      rw [if_pos (by omega), List.getD_append_right (encB (splitOnDot name)) [0] 0 i hiB,
        hieq]
      simp

/-- If some piece of the split name is longer than 63 bytes and everything
before it fits in the buffer, `writeLabels` fails with `LabelTooLong`. -/
lemma writeLabels_long_label : ∀ (L : List (List Nat)) (b : BytePacketBuffer),
    (∃ l ∈ L, 63 < l.length) → b.pos + (encB L).length ≤ 512 →
    b.writeLabels L = .error .labelTooLong := by
  intro L
  induction L with
  | nil =>
    intro b hex _
    obtain ⟨l, hl, _⟩ := hex
    exact absurd hl (List.not_mem_nil l)
  | cons l r ih =>
    intro b hex hb
    have henc : (encB (l :: r)).length = 1 + l.length + (encB r).length := by
      simp only [encB, List.length_cons, List.length_append]
      omega
    rw [henc] at hb
    by_cases hl63 : l.length > 0x3f
    · simp only [BytePacketBuffer.writeLabels, if_pos hl63]
    · have hpos : ¬(b.pos ≥ 512) := by omega
      have hmod : l.length % 256 = l.length := Nat.mod_eq_of_lt (by omega)
      obtain ⟨b2, hw1, hw2, _, _⟩ := writeBytes_spec l
        { buf := fun i => if i = b.pos then l.length % 256 else b.buf i, pos := b.pos + 1 }
        (by simp only []; omega)
      simp only [] at hw2
      obtain ⟨x, hx, hxl⟩ := hex
      rcases List.mem_cons.mp hx with hxeq | hxr
      · subst hxeq
        omega
      · simp only [BytePacketBuffer.writeLabels, if_neg hl63,
          BytePacketBuffer.write_u8, BytePacketBuffer.write, if_neg hpos, hw1]
        exact ih b2 ⟨x, hxr, hxl⟩ (by omega)

/-- Reading back an in-buffer label encoding: if the bytes at `p` hold the
wire encoding of labels `L` (each of length 1..63), the not-yet-jumped
loop consumes exactly the encoding, seeks just past the terminating zero,
and appends the lowercased labels to the output, `delim` before the first
label and dots between the rest. -/
lemma readEnc : ∀ (L : List (List Nat)) (fuel : Nat) (b : BytePacketBuffer)
    (p jp : Nat) (out delim : List Nat),
    (∀ l ∈ L, 1 ≤ l.length ∧ l.length ≤ 63) →
    p + encLen L ≤ 512 →
    (∀ i, i < encLen L → b.buf (p + i) = (enc L).getD i 0) →
    jp ≤ 5 →
    L.length + 1 ≤ fuel →
    readQnameLoop fuel b p false jp out delim =
      some (.ok (), { b with pos := p + encLen L },
        out ++ joinWith delim (L.map (List.map toLowerByte))) := by
  intro L
  induction L with
  | nil =>
    intro fuel b p jp out delim _ hfit hcorr hjp hfuel
    obtain ⟨fuel, rfl⟩ : ∃ f, fuel = f + 1 := ⟨fuel - 1, by omega⟩
    have hfit1 : p + 1 ≤ 512 := by
      have h := hfit
      simp only [encLen, enc, List.length_cons, List.length_nil] at h
      omega
    have hp : ¬(p ≥ 512) := by omega
    have hb0 : b.buf p = 0 := by
      have h := hcorr 0 (by simp [encLen, enc])
      simpa [enc] using h
    simp only [readQnameLoop, if_neg (by omega : ¬jp > 5), BytePacketBuffer.get,
      if_neg hp, hb0]
    simp [encLen, enc, joinWith]
  | cons l r ih =>
    intro fuel b p jp out delim hwf hfit hcorr hjp hfuel
    obtain ⟨fuel, rfl⟩ : ∃ f, fuel = f + 1 := ⟨fuel - 1, by omega⟩
    have hwl := hwf l (List.mem_cons_self l r)
    have hencc : encLen (l :: r) = l.length + 1 + encLen r := encLen_cons l r
    have hencr : 1 ≤ encLen r := by have := length_lt_encLen r; omega
    rw [hencc] at hfit
    have hp : ¬(p ≥ 512) := by omega
    have hlen0 : b.buf p = l.length := by
      have h := hcorr 0 (by omega)
      rw [Nat.add_zero] at h
      rw [h]
      rfl
    have hnptr : ¬(l.length &&& 0xC0 = 0xC0) := by
      have hle : l.length &&& 0xC0 ≤ l.length := Nat.and_le_left
      omega
    have hne0 : ¬(l.length = 0) := by omega
    have hnr : ¬((p + 1) + l.length ≥ 512) := by omega
    simp only [readQnameLoop, if_neg (by omega : ¬jp > 5), BytePacketBuffer.get,
      if_neg hp, hlen0, if_neg hnptr, if_neg hne0, BytePacketBuffer.get_range,
      if_neg hnr]
    have hrange : (List.range l.length).map (fun i => b.buf (p + 1 + i)) = l := by
      apply range_map_getD
      intro i hi
      have h := hcorr (1 + i) (by omega)
      rw [show p + (1 + i) = p + 1 + i by omega] at h
      rw [h, show (1 : Nat) + i = i + 1 by omega]
      show (l.length :: (l ++ enc r)).getD (i + 1) 0 = l.getD i 0
      simp only [List.getD_cons_succ]
      exact List.getD_append l (enc r) 0 i hi
    rw [hrange]
    have hcorr2 : ∀ i, i < encLen r →
        b.buf (p + 1 + l.length + i) = (enc r).getD i 0 := by
      intro i hi
      have h := hcorr (1 + l.length + i) (by omega)
      rw [show p + (1 + l.length + i) = p + 1 + l.length + i by omega] at h
      rw [h, show 1 + l.length + i = (l.length + i) + 1 by omega]
      show (l.length :: (l ++ enc r)).getD ((l.length + i) + 1) 0 = (enc r).getD i 0
      simp only [List.getD_cons_succ]
      rw [List.getD_append_right l (enc r) 0 (l.length + i) (by omega)]
      congr 1
      omega
    have hrec := ih fuel b (p + 1 + l.length) jp
      (out ++ delim ++ l.map toLowerByte) [46]
      (fun x hx => hwf x (List.mem_cons_of_mem _ hx))
      (by omega) hcorr2 hjp
      (by simp only [List.length_cons] at hfuel; omega)
    rw [hrec, show p + 1 + l.length + encLen r = p + (l.length + 1 + encLen r) by omega,
      ← hencc]
    simp [joinWith, List.append_assoc]

/-- C8: decoding any wire-encoded label sequence (labels of 1..63 bytes)
case-folds every decoded label byte through `toLowerByte` (ASCII `A`–`Z`
to `a`–`z`); in particular uppercase letters come out lowercase. -/
theorem read_qname_lowercases (b : BytePacketBuffer) (L : List (List Nat))
    (h1 : ∀ l ∈ L, 1 ≤ l.length ∧ l.length ≤ 63)
    (h2 : b.pos + encLen L ≤ 512)
    (h3 : ∀ i, i < encLen L → b.buf (b.pos + i) = (enc L).getD i 0) :
    read_qname b [] = some (.ok (), { b with pos := b.pos + encLen L },
      joinWith [] (L.map (List.map toLowerByte))) := by
  have h := readEnc L 4200 b b.pos 0 [] [] h1 h2 h3 (by omega)
    (by have := length_lt_encLen L; omega)
  simpa [read_qname] using h

/-- Witness for C8 on the encoding of `WWW.Example.COM`: the decode
succeeds and yields exactly the bytes of `"www.example.com"`. -/
theorem read_qname_lowercases_witness :
    read_qname wwwBuf []
      = some (.ok (), { wwwBuf with pos := wwwBuf.pos + encLen wwwLabels },
        joinWith [] (wwwLabels.map (List.map toLowerByte))) ∧
    joinWith [] (wwwLabels.map (List.map toLowerByte))
      = [119, 119, 119, 46, 101, 120, 97, 109, 112, 108, 101, 46, 99, 111, 109] ∧
    wwwBuf.pos + encLen wwwLabels = 17 :=
  ⟨read_qname_lowercases wwwBuf wwwLabels (by decide) (by decide) (by decide),
    by decide, by decide⟩

/-- C7: round trip.  For a name whose pieces are non-empty, at most 63
bytes, and lowercase ASCII letters, writing it into a fresh buffer and
reading it back from position 0 into an empty output reproduces the name
exactly, and both the bytes written and the final read position equal
`name.length + 2`. -/
theorem write_read_qname_roundtrip (name : List Nat)
    (h1 : ∀ l ∈ splitOnDot name,
      l ≠ [] ∧ l.length ≤ 63 ∧ ∀ c ∈ l, 97 ≤ c ∧ c ≤ 122)
    (h2 : name.length + 2 ≤ 512) :
    ∃ b1 b2, BytePacketBuffer.new.write_qname name = .ok b1 ∧
      b1.pos = name.length + 2 ∧
      read_qname { b1 with pos := 0 } [] = some (.ok (), b2, name) ∧
      b2.pos = name.length + 2 := by
  have hfit : (BytePacketBuffer.new).pos + encLen (splitOnDot name) ≤ 512 := by
    rw [encLen_splitOnDot]
    have hnew : (BytePacketBuffer.new).pos = 0 := rfl
    omega
  obtain ⟨b1, hw1, hw2, _, hw4⟩ := write_qname_spec name BytePacketBuffer.new
    (fun l hl => (h1 l hl).2.1) hfit
  have hwf : ∀ l ∈ splitOnDot name, 1 ≤ l.length ∧ l.length ≤ 63 := by
    intro l hl
    exact ⟨List.length_pos.mpr (h1 l hl).1, (h1 l hl).2.1⟩
  have hread := read_qname_lowercases { b1 with pos := 0 } (splitOnDot name) hwf
    (by simp only []; omega)
    (by
      intro i hi
      simp only []
      have h := hw4 i hi
      simpa [BytePacketBuffer.new] using h)
  have hmapid : (splitOnDot name).map (List.map toLowerByte) = splitOnDot name :=
    map_map_toLowerByte_id _ (fun l hl => (h1 l hl).2.2)
  rw [hmapid, joinWith_splitOnDot, List.nil_append] at hread
  refine ⟨b1, { b1 with pos := 0 + encLen (splitOnDot name) }, hw1, ?_, ?_, ?_⟩
  · rw [hw2, encLen_splitOnDot]
    simp [BytePacketBuffer.new]
  · exact hread
  · simp only []
    rw [encLen_splitOnDot]
    omega

/-- Witness for C7 on the name `ab.c` (`[97, 98, 46, 99]`). -/
theorem write_read_qname_roundtrip_witness :
    ∃ b1 b2, BytePacketBuffer.new.write_qname [97, 98, 46, 99] = .ok b1 ∧
      b1.pos = 6 ∧
      read_qname { b1 with pos := 0 } [] = some (.ok (), b2, [97, 98, 46, 99]) ∧
      b2.pos = 6 :=
  write_read_qname_roundtrip [97, 98, 46, 99] (by decide) (by decide)

/-- C9: with space remaining (`pos + name.length + 2 ≤ 512`),
`write_qname` succeeds when every piece of the split name has at most 63
bytes (a 63-byte label is accepted), and fails with `LabelTooLong` as
soon as any piece has 64 or more bytes. -/
theorem write_qname_label_length (b : BytePacketBuffer) (name : List Nat)
    (h : b.pos + name.length + 2 ≤ 512) :
    ((∀ l ∈ splitOnDot name, l.length ≤ 63) →
      ∃ b', b.write_qname name = .ok b') ∧
    ((∃ l ∈ splitOnDot name, 63 < l.length) →
      b.write_qname name = .error .labelTooLong) := by
  have hfit : b.pos + encLen (splitOnDot name) ≤ 512 := by
    rw [encLen_splitOnDot]
    omega
  constructor
  · intro hall
    obtain ⟨b', hb', _, _, _⟩ := write_qname_spec name b hall hfit
    exact ⟨b', hb'⟩
  · intro hex
    have henclen : encLen (splitOnDot name) = (encB (splitOnDot name)).length + 1 := by
      rw [encLen, enc_eq_encB]
      simp
    have hfail := writeLabels_long_label (splitOnDot name) b hex (by omega)
    simp only [BytePacketBuffer.write_qname, hfail]

/-- Witness for C9: a single label of exactly 63 `a`s is accepted, a
single label of 64 `a`s is rejected with `LabelTooLong`. -/
theorem write_qname_label_length_witness :
    (∃ b', BytePacketBuffer.new.write_qname (List.replicate 63 97) = .ok b') ∧
    BytePacketBuffer.new.write_qname (List.replicate 64 97)
      = Except.error DnsError.labelTooLong :=
  ⟨(write_qname_label_length BytePacketBuffer.new (List.replicate 63 97)
      (by decide)).1 (by decide),
   (write_qname_label_length BytePacketBuffer.new (List.replicate 64 97)
      (by decide)).2 (by decide)⟩
